import Mathlib

/-!
Shallow embedding of the triangle-mesh topology engine of the TSExam
repository (problem 1): geometric primitives, mesh construction with
degeneracy and manifold checks, orientation propagation, connected
components, closedness classification and void detection.

Coordinates are modelled as rationals standing for exact IEEE doubles;
all comparisons in the source are exact comparisons, so the rational
model mirrors them faithfully on representable inputs.  Machine-integer
conversions (`std::int32_t` triangle indices, `std::size_t` vector
indices) are modelled explicitly with their wrap-around semantics.
Out-of-range vector accesses (undefined behaviour in the source) are
modelled by `Except Unit`, the error standing for the out-of-bounds
access.
-/

namespace TSExam

-- Definitions: the embedded data model and operations.

/-- A 3D point: `std::array<double, 3>` from `geometry.hpp`. -/
structure Point where
  x : ℚ
  y : ℚ
  z : ℚ
deriving DecidableEq, Repr

/-- `std::array` lexicographic `operator<` on the three coordinates
(x first, then y, then z). -/
def pointLt (p q : Point) : Bool :=
  if p.x < q.x then true
  else if q.x < p.x then false
  else if p.y < q.y then true
  else if q.y < p.y then false
  else decide (p.z < q.z)

/-- An edge: a pair of points; canonical form has the lexicographically
smaller point first. -/
abbrev Edge := Point × Point

/-- `make_edge` from `geometry.hpp`: builds a canonical edge from two
points, placing the smaller point (lexicographically) first. -/
def make_edge (p q : Point) : Edge :=
  if pointLt p q then (p, q) else (q, p)

/-- A triangle: ordered triple of points, `geometry.hpp`. -/
structure Triangle where
  a : Point
  b : Point
  c : Point
deriving DecidableEq, Repr

/-- The boost-style hash combination step shared by `PointHash` and
`EdgeHash`: `h ^= h2 + 0x9e3779b97f4a7c15 + (h << 6) + (h >> 2)` on
64-bit `std::size_t`. -/
def hashCombine (h1 h2 : ℕ) : ℕ :=
  h1 ^^^ ((h2 + 0x9e3779b97f4a7c15 + h1 * 2 ^ 6 + h1 / 2 ^ 2) % 2 ^ 64)

/-- `PointHash` from `geometry.hpp`, parameterised by the (opaque,
implementation-defined) `std::hash<double>` instance `hd`. -/
def pointHash (hd : ℚ → ℕ) (p : Point) : ℕ :=
  hashCombine (hashCombine (hd p.x) (hd p.y)) (hd p.z)

/-- `EdgeHash` from `geometry.hpp`, parameterised by the
`std::hash<double>` instance `hd`. -/
def edgeHash (hd : ℚ → ℕ) (e : Edge) : ℕ :=
  hashCombine (pointHash hd e.1) (pointHash hd e.2)

set_option linter.unnecessarySeqFocus false

/-- `TriangleIndex` is `std::int32_t`; `-1` is the placeholder for the
missing second triangle of a boundary edge (`triangle_mesh.hpp`). -/
def kBoundaryTriangleIndex : ℤ := -1

/-- `kTolerance = 1e-16` from `triangle_mesh.hpp`. -/
def kTolerance : ℚ := 1 / 10 ^ 16

/-- `kEpsilon = 1e-9` from `void_detection.hpp`. -/
def kEpsilon : ℚ := 1 / 10 ^ 9

/-- `static_cast<TriangleIndex>(i)` for a `std::size_t` loop counter:
conversion to `std::int32_t`, reducing modulo `2^32` into the signed
range (well defined two's-complement wrap-around). -/
def toTriangleIndex (i : ℕ) : ℤ :=
  if i % 2 ^ 32 < 2 ^ 31 then ((i % 2 ^ 32 : ℕ) : ℤ)
  else ((i % 2 ^ 32 : ℕ) : ℤ) - 2 ^ 32

/-- `static_cast<std::size_t>` (or the integral promotion) applied to a
`TriangleIndex`: conversion of `std::int32_t` to the unsigned 64-bit
`std::size_t`, i.e. reduction modulo `2^64`. -/
def int32ToSizeT (z : ℤ) : ℕ := (z % 2 ^ 64).toNat

/-- The value type of `edge_connectivity_`: `std::array<TriangleIndex, 2>`,
the indices of the (up to two) incident triangles. -/
abbrev EdgeSlots := ℤ × ℤ

/-- The edge-to-triangle connectivity map
`std::unordered_map<Edge, std::array<TriangleIndex, 2>, EdgeHash, EdgeEquality>`,
modelled as an association list with unique keys (only lookups and
in-place updates are performed on it, so the bucket order is irrelevant). -/
abbrev EdgeMap := List (Edge × EdgeSlots)

/-- `unordered_map::find` on the connectivity map. -/
def findSlots (m : EdgeMap) (e : Edge) : Option EdgeSlots :=
  (m.find? fun p => decide (p.1 = e)).map Prod.snd

/-- One edge registration inside `TriangleMesh::BuildEdgeToTriangleConnectivity`:
`try_emplace(edge, {i, kBoundaryTriangleIndex})`, and on failure either
the non-manifold throw (second slot already occupied) or writing `i`
into the second slot. -/
def registerEdge (m : EdgeMap) (e : Edge) (i : ℤ) : Except Unit EdgeMap :=
  match findSlots m e with
  | none => .ok (m ++ [(e, (i, kBoundaryTriangleIndex))])
  | some s =>
    if s.2 ≠ kBoundaryTriangleIndex then .error ()
    else .ok (m.map fun p => if p.1 = e then (p.1, (p.2.1, i)) else p)

/-- The three canonical edges of a triangle, in the order the source
builds them: (a,b), (b,c), (c,a). -/
def triangleEdges (t : Triangle) : List Edge :=
  [make_edge t.a t.b, make_edge t.b t.c, make_edge t.c t.a]

/-- Registration of the three edges of the `i`-th triangle, in order. -/
def registerTriangle (m : EdgeMap) (i : ℕ) (t : Triangle) : Except Unit EdgeMap := do
  let m1 ← registerEdge m (make_edge t.a t.b) (toTriangleIndex i)
  let m2 ← registerEdge m1 (make_edge t.b t.c) (toTriangleIndex i)
  registerEdge m2 (make_edge t.c t.a) (toTriangleIndex i)

/-- The indexed loop of `BuildEdgeToTriangleConnectivity`, processing the
triangles from index `i` upwards over an accumulated map. -/
def registerAll (m : EdgeMap) (i : ℕ) : List Triangle → Except Unit EdgeMap
  | [] => .ok m
  | t :: rest => do
    let m' ← registerTriangle m i t
    registerAll m' (i + 1) rest

/-- `TriangleMesh::BuildEdgeToTriangleConnectivity` over a cleared map. -/
def buildEdgeToTriangleConnectivity (ts : List Triangle) : Except Unit EdgeMap :=
  registerAll [] 0 ts

/-- The duplicate-vertex test of the constructor:
`t.a == t.b || t.b == t.c || t.c == t.a`. -/
def hasDuplicateVertex (t : Triangle) : Bool :=
  decide (t.a = t.b) || decide (t.b = t.c) || decide (t.c = t.a)

/-- The squared magnitude of `(b - a) × (c - a)` computed by the
constructor's collinearity check. -/
def crossSq (t : Triangle) : ℚ :=
  let v1x := t.b.x - t.a.x
  let v1y := t.b.y - t.a.y
  let v1z := t.b.z - t.a.z
  let v2x := t.c.x - t.a.x
  let v2y := t.c.y - t.a.y
  let v2z := t.c.z - t.a.z
  let cx := v1y * v2z - v1z * v2y
  let cy := v1z * v2x - v1x * v2z
  let cz := v1x * v2y - v1y * v2x
  cx * cx + cy * cy + cz * cz

/-- A triangle the constructor rejects as degenerate: duplicate vertices,
or squared cross-product magnitude below `kTolerance * kTolerance`. -/
def isDegenerate (t : Triangle) : Bool :=
  hasDuplicateVertex t || decide (crossSq t < kTolerance * kTolerance)

/-- The construction-time failures of `TriangleMesh::TriangleMesh`
(modulo file I/O, which is outside the mesh engine). -/
inductive MeshError where
  | emptyMesh : MeshError
  | degenerateGeometry (index : ℕ) : MeshError
  | nonManifold : MeshError
deriving DecidableEq, Repr

/-- The constructor's degeneracy loop from triangle index `i` on: throws
`DegenerateGeometryError` carrying the index of the first bad triangle. -/
def checkDegenerate (i : ℕ) : List Triangle → Except MeshError Unit
  | [] => .ok ()
  | t :: rest =>
    if isDegenerate t then .error (.degenerateGeometry i)
    else checkDegenerate (i + 1) rest

/-- The mesh: triangle arena plus derived edge connectivity
(`triangle_mesh.hpp`). -/
structure TriangleMesh where
  triangles : List Triangle
  edge_connectivity : EdgeMap
deriving DecidableEq, Repr

/-- `TriangleMesh::TriangleMesh` applied to an already parsed triangle
list (STL parsing is the excluded boundary format reader): empty check,
degeneracy check, then incremental connectivity construction. -/
def buildMesh (ts : List Triangle) : Except MeshError TriangleMesh :=
  if ts.isEmpty then .error .emptyMesh
  else
    match checkDegenerate 0 ts with
    | .error e => .error e
    | .ok _ =>
      match buildEdgeToTriangleConnectivity ts with
      | .error _ => .error .nonManifold
      | .ok m => .ok ⟨ts, m⟩

/-- The invariant of the connectivity map after the triangles with
indices below `k` have been processed: every entry's first slot was
written by a triangle that has that edge, and the second slot is either
the boundary placeholder or a strictly later triangle with that edge. -/
def ConnInvariant (ts : List Triangle) (k : ℕ) (m : EdgeMap) : Prop :=
  ∀ e s, (e, s) ∈ m →
    ∃ i : ℕ, i < k ∧ s.1 = toTriangleIndex i ∧
      (∃ t, ts.get? i = some t ∧ e ∈ triangleEdges t) ∧
      (s.2 = kBoundaryTriangleIndex ∨
        ∃ j : ℕ, i < j ∧ j < k ∧ s.2 = toTriangleIndex j ∧
          ∃ t', ts.get? j = some t' ∧ e ∈ triangleEdges t')

/-- `flip_triangle`: swaps the second and third vertices. -/
def flip_triangle (t : Triangle) : Triangle := ⟨t.a, t.c, t.b⟩

/-- `has_directed_edge`: the triangle traverses the edge from `p` to `q`
in its vertex ordering. -/
def has_directed_edge (t : Triangle) (p q : Point) : Bool :=
  (decide (t.a = p) && decide (t.b = q)) ||
  (decide (t.b = p) && decide (t.c = q)) ||
  (decide (t.c = p) && decide (t.a = q))

/-- `are_orientations_consistent`: the two triangles traverse the shared
edge in opposite directions. -/
def are_orientations_consistent (t1 t2 : Triangle) (e : Edge) : Bool :=
  has_directed_edge t1 e.1 e.2 != has_directed_edge t2 e.1 e.2

/-- `std::array<TriangleIndex, 2>::size()`: the compile-time size of the
adjacency slot array, always `2`.  The source's boundary-edge test reads
`degree_of_edge.size() != 2`, which compares this constant. -/
def edgeSlotsSize : ℕ := 2

/-- The neighbor-index selection of the orientation BFS:
`(degree_of_edge[0] == triangle_index) ? degree_of_edge[1] : degree_of_edge[0]`,
where the comparison promotes the `TriangleIndex` to `std::size_t` and
the selected slot is converted to `std::size_t`. -/
def reorientNeighbor (deg : EdgeSlots) (ti : ℕ) : ℕ :=
  if int32ToSizeT deg.1 = ti then int32ToSizeT deg.2 else int32ToSizeT deg.1

def reorientStep (triangles : List Triangle) (conn : EdgeMap) (ti : ℕ) (tri : Triangle)
    (st : List Bool × List ℕ × List Triangle) (e : Edge) :
    Except Unit (List Bool × List ℕ × List Triangle) :=
  match findSlots conn e with
  | none => .ok st
  | some deg =>
    if edgeSlotsSize ≠ 2 then .ok st
    else
      match st.1.get? (reorientNeighbor deg ti) with
      | none => .error ()
      | some true => .ok st
      | some false =>
        match triangles.get? (reorientNeighbor deg ti) with
        | none => .error ()
        | some ntri =>
          .ok (st.1.set (reorientNeighbor deg ti) true,
            st.2.1 ++ [reorientNeighbor deg ti],
            if are_orientations_consistent tri ntri e = false
            then st.2.2 ++ [flip_triangle ntri] else st.2.2)

/-- The loop over the three edges of the dequeued triangle. -/
def reorientVisit (triangles : List Triangle) (conn : EdgeMap) (ti : ℕ) (tri : Triangle) :
    List Edge → (List Bool × List ℕ × List Triangle) →
      Except Unit (List Bool × List ℕ × List Triangle)
  | [], st => .ok st
  | e :: es, st =>
    match reorientStep triangles conn ti tri st e with
    | .error u => .error u
    | .ok st' => reorientVisit triangles conn ti tri es st'

/-- The BFS while-loop of `reorient_inconsistent_triangles`, with an
explicit fuel bound (the loop strictly decreases
`2 * unvisited + queue length`, so the chosen fuel is never exhausted;
see `reorientBFSAux_isSome`). -/
def reorientBFSAux (triangles : List Triangle) (conn : EdgeMap) :
    ℕ → List Bool → List ℕ → List Triangle → Option (Except Unit (List Triangle))
  | 0, _, _, _ => none
  | _ + 1, _, [], flipped => some (.ok flipped)
  | fuel + 1, visited, ti :: rest, flipped =>
    match triangles.get? ti with
    | none => some (.error ())
    | some tri =>
      match reorientVisit triangles conn ti tri (triangleEdges tri) (visited, [], flipped) with
      | .error u => some (.error u)
      | .ok (v', ps, fl') => reorientBFSAux triangles conn fuel v' (rest ++ ps) fl'

/-- `reorient_inconsistent_triangles`: out-of-range seed gives the empty
list; otherwise mark and enqueue the seed and run the BFS.  The fuel
strictly exceeds `2 * unvisited + queue length`, which every loop
iteration decreases, so it is never exhausted (`reorientBFSAux_isSome`). -/
def reorient_inconsistent_triangles (mesh : TriangleMesh) (seed : ℕ) :
    Except Unit (List Triangle) :=
  if seed ≥ mesh.triangles.length then .ok []
  else
    let visited := (List.replicate mesh.triangles.length false).set seed true
    (reorientBFSAux mesh.triangles mesh.edge_connectivity
      (2 * visited.count false + 1 + 1) visited [seed] []).getD (.ok [])

/-- The neighbor-index selection of the component BFS:
`(degree_of_edge[0] == static_cast<TriangleIndex>(triangle_index))
? degree_of_edge[1] : degree_of_edge[0]`, the selected slot converted to
`std::size_t`. -/
def componentNeighbor (deg : EdgeSlots) (ti : ℕ) : ℕ :=
  if deg.1 = toTriangleIndex ti then int32ToSizeT deg.2 else int32ToSizeT deg.1

def componentStep (conn : EdgeMap) (ti : ℕ) (st : List Bool × List ℕ) (e : Edge) :
    Except Unit (List Bool × List ℕ) :=
  match findSlots conn e with
  | none => .ok st
  | some deg =>
    if deg.2 = kBoundaryTriangleIndex then .ok st
    else
      match st.1.get? (componentNeighbor deg ti) with
      | none => .error ()
      | some true => .ok st
      | some false =>
        .ok (st.1.set (componentNeighbor deg ti) true, st.2 ++ [componentNeighbor deg ti])

/-- The loop over the three edges of the dequeued triangle. -/
def componentVisit (conn : EdgeMap) (ti : ℕ) :
    List Edge → (List Bool × List ℕ) → Except Unit (List Bool × List ℕ)
  | [], st => .ok st
  | e :: es, st =>
    match componentStep conn ti st e with
    | .error u => .error u
    | .ok st' => componentVisit conn ti es st'

/-- The inner BFS while-loop of `find_connected_components`: dequeue,
record the index in the component, then process the three edges. -/
def componentBFSAux (triangles : List Triangle) (conn : EdgeMap) :
    ℕ → List Bool → List ℕ → List ℤ → Option (Except Unit (List Bool × List ℤ))
  | 0, _, _, _ => none
  | _ + 1, visited, [], comp => some (.ok (visited, comp))
  | fuel + 1, visited, ti :: rest, comp =>
    match triangles.get? ti with
    | none => some (.error ())
    | some tri =>
      match componentVisit conn ti (triangleEdges tri) (visited, []) with
      | .error u => some (.error u)
      | .ok (v', ps) =>
        componentBFSAux triangles conn fuel v' (rest ++ ps) (comp ++ [toTriangleIndex ti])

/-- The inner BFS with its sufficient fuel (never exhausted on a valid
mesh, see `componentBFSAux_run`). -/
def componentBFS (triangles : List Triangle) (conn : EdgeMap)
    (visited : List Bool) (queue : List ℕ) (comp : List ℤ) :
    Except Unit (List Bool × List ℤ) :=
  (componentBFSAux triangles conn (2 * visited.count false + queue.length + 1)
    visited queue comp).getD (.ok ([], []))

/-- The outer loop of `find_connected_components`: repeatedly seed a BFS
at the smallest unvisited triangle index (`num_triangles` when all are
visited, ending the loop). -/
def findComponentsAux (triangles : List Triangle) (conn : EdgeMap) :
    ℕ → List Bool → List (List ℤ) → Option (Except Unit (List (List ℤ)))
  | 0, _, _ => none
  | fuel + 1, visited, acc =>
    let seed := visited.findIdx fun b => !b
    if seed ≥ triangles.length then some (.ok acc)
    else
      match componentBFS triangles conn (visited.set seed true) [seed] [] with
      | .error u => some (.error u)
      | .ok (v', comp) => findComponentsAux triangles conn fuel v' (acc ++ [comp])

/-- `find_connected_components` (the outer fuel strictly exceeds the
number of unvisited triangles, which decreases every iteration; see
`findComponentsAux_run`). -/
def find_connected_components (mesh : TriangleMesh) : Except Unit (List (List ℤ)) :=
  let visited := List.replicate mesh.triangles.length false
  (findComponentsAux mesh.triangles mesh.edge_connectivity
    (visited.count false + 1) visited []).getD (.ok [])

/-- The per-edge test of `is_connected_component_closed`: the edge is in
the map (a missing edge means open) and its second slot is occupied by a
real triangle (a boundary slot means open). -/
def edgeClosed (m : EdgeMap) (e : Edge) : Bool :=
  match findSlots m e with
  | none => false
  | some deg => decide (deg.2 ≠ kBoundaryTriangleIndex)

/-- `is_connected_component_closed`: every triangle of the component has
all three canonical edges present in the map with an occupied second
slot; a missing edge or a boundary second slot makes the component open.
The error models the out-of-range triangle access for an invalid stored
index. -/
def is_connected_component_closed (mesh : TriangleMesh) :
    List ℤ → Except Unit Bool
  | [] => .ok true
  | tiz :: rest =>
    match mesh.triangles.get? (int32ToSizeT tiz) with
    | none => .error ()
    | some tri =>
      if (triangleEdges tri).all (edgeClosed mesh.edge_connectivity)
      then is_connected_component_closed mesh rest
      else .ok false

/-- `AxisAlignedBoundingBox`: six scalars. -/
structure AxisAlignedBoundingBox where
  min_x : ℚ
  min_y : ℚ
  min_z : ℚ
  max_x : ℚ
  max_y : ℚ
  max_z : ℚ
deriving DecidableEq, Repr

/-- The default-constructed box (all six scalars zero). -/
def defaultAABB : AxisAlignedBoundingBox := ⟨0, 0, 0, 0, 0, 0⟩

/-- The checked six-scalar constructor: throws when some `min` exceeds
the corresponding `max`. -/
def mkAABB (minx miny minz maxx maxy maxz : ℚ) :
    Except Unit AxisAlignedBoundingBox :=
  if minx > maxx ∨ miny > maxy ∨ minz > maxz then .error ()
  else .ok ⟨minx, miny, minz, maxx, maxy, maxz⟩

/-- `aabb_contains`: the outer box contains the inner box with tolerance
`tol` on every axis. -/
def aabb_contains (outer inner : AxisAlignedBoundingBox) (tol : ℚ) : Bool :=
  decide (outer.min_x ≤ inner.min_x - tol) && decide (inner.max_x + tol ≤ outer.max_x) &&
  decide (outer.min_y ≤ inner.min_y - tol) && decide (inner.max_y + tol ≤ outer.max_y) &&
  decide (outer.min_z ≤ inner.min_z - tol) && decide (inner.max_z + tol ≤ outer.max_z)

/-- The `expand` lambda of `compute_component_aabb`. -/
def expandAABB (box : AxisAlignedBoundingBox) (p : Point) : AxisAlignedBoundingBox :=
  ⟨min box.min_x p.x, min box.min_y p.y, min box.min_z p.z,
   max box.max_x p.x, max box.max_y p.y, max box.max_z p.z⟩

/-- The expansion loop of `compute_component_aabb` over all component
triangles. -/
def expandLoop (triangles : List Triangle) :
    List ℤ → AxisAlignedBoundingBox → Except Unit AxisAlignedBoundingBox
  | [], box => .ok box
  | i :: rest, box =>
    match triangles.get? (int32ToSizeT i) with
    | none => .error ()
    | some t =>
      expandLoop triangles rest (expandAABB (expandAABB (expandAABB box t.a) t.b) t.c)

/-- `compute_component_aabb`: box of the first triangle's vertices,
expanded over every component triangle, then padded on all six faces.
The error models the out-of-range `component[0]` access on an empty
component and invalid stored indices. -/
def compute_component_aabb (mesh : TriangleMesh) (component : List ℤ) (pad : ℚ) :
    Except Unit AxisAlignedBoundingBox :=
  match component with
  | [] => .error ()
  | i0 :: _ =>
    match mesh.triangles.get? (int32ToSizeT i0) with
    | none => .error ()
    | some t0 =>
      match mkAABB (min t0.a.x (min t0.b.x t0.c.x)) (min t0.a.y (min t0.b.y t0.c.y))
          (min t0.a.z (min t0.b.z t0.c.z)) (max t0.a.x (max t0.b.x t0.c.x))
          (max t0.a.y (max t0.b.y t0.c.y)) (max t0.a.z (max t0.b.z t0.c.z)) with
      | .error u => .error u
      | .ok box0 =>
        match expandLoop mesh.triangles component box0 with
        | .error u => .error u
        | .ok box =>
          .ok ⟨box.min_x - pad, box.min_y - pad, box.min_z - pad,
               box.max_x + pad, box.max_y + pad, box.max_z + pad⟩

/-- The box-collection loop of `identify_voids`: one
`compute_component_aabb` per closed component, in order. -/
def computeAABBs (mesh : TriangleMesh) :
    List (List ℤ) → Except Unit (List AxisAlignedBoundingBox)
  | [] => .ok []
  | c :: rest =>
    match compute_component_aabb mesh c kEpsilon with
    | .error u => .error u
    | .ok b =>
      match computeAABBs mesh rest with
      | .error u => .error u
      | .ok bs => .ok (b :: bs)

/-- `identify_voids`: fewer than two closed components yield no voids;
otherwise compute every component's padded box, then keep each component
whose box is contained in some other component's box (self-comparison
excluded), in index order. -/
def identify_voids (mesh : TriangleMesh) (closed_components : List (List ℤ)) :
    Except Unit (List (List ℤ)) :=
  if closed_components.length < 2 then .ok []
  else
    match computeAABBs mesh closed_components with
    | .error u => .error u
    | .ok aabbs =>
      .ok ((((List.range closed_components.length).filter fun i =>
          (List.range closed_components.length).any fun j =>
            decide (j ≠ i) &&
              aabb_contains (aabbs.getD j defaultAABB) (aabbs.getD i defaultAABB)
                kEpsilon)).map
        fun i => closed_components.getD i [])

/-- The triangle (0,0,0)-(1,0,0)-(0,1,0) of the repository's tests. -/
def triP : Triangle := ⟨⟨0, 0, 0⟩, ⟨1, 0, 0⟩, ⟨0, 1, 0⟩⟩

/-- The triangle (0,0,0)-(1,0,0)-(1,1,0): traverses the edge
(0,0,0)→(1,0,0) in the same direction as `triP`. -/
def triQ : Triangle := ⟨⟨0, 0, 0⟩, ⟨1, 0, 0⟩, ⟨1, 1, 0⟩⟩

/-- A triangle far away from `triP` (z = 10), sharing nothing with it. -/
def triR : Triangle := ⟨⟨0, 0, 10⟩, ⟨1, 0, 10⟩, ⟨0, 1, 10⟩⟩

/-- The connectivity map the build produces for a triangle list (used to
spell out concrete meshes in closed statements). -/
def connOf (ts : List Triangle) : EdgeMap :=
  (registerAll [] 0 ts).toOption.getD []

/-- The padded box of the component `[0]` (triangle `triP`) of the
two-component mesh `[triP, triR]`. -/
def boxP : AxisAlignedBoundingBox :=
  ⟨0 - kEpsilon, 0 - kEpsilon, 0 - kEpsilon, 1 + kEpsilon, 1 + kEpsilon, 0 + kEpsilon⟩

/-- The padded box of the component `[1]` (triangle `triR`). -/
def boxR : AxisAlignedBoundingBox :=
  ⟨0 - kEpsilon, 0 - kEpsilon, 10 - kEpsilon, 1 + kEpsilon, 1 + kEpsilon, 10 + kEpsilon⟩

/-- All slot indices stored in the map are real triangle indices below
`n` or (for second slots) the boundary placeholder. -/
def SlotsBounded (n : ℕ) (m : EdgeMap) : Prop :=
  ∀ e s, (e, s) ∈ m →
    (0 ≤ s.1 ∧ s.1 < (n : ℤ)) ∧
    (s.2 = kBoundaryTriangleIndex ∨ (0 ≤ s.2 ∧ s.2 < (n : ℤ)))

/-- The invariant of the inner component BFS, relative to the visited
array `vPre` of the outer loop just before this component's seed was
marked: the dequeued indices `cN` and the queue `q` are distinct
in-range indices that were unvisited in `vPre`, the visited array is
`vPre` plus exactly those indices, and the seed leads the discovery
sequence. -/
structure BfsState (n seed : ℕ) (vPre v : List Bool) (q cN : List ℕ) : Prop where
  hlen : v.length = n
  hlenPre : vPre.length = n
  hlt : ∀ x ∈ cN ++ q, x < n
  hfresh : ∀ x ∈ cN ++ q, vPre.get? x = some false
  hnodup : (cN ++ q).Nodup
  hvis : ∀ k, v.get? k = some true ↔ (vPre.get? k = some true ∨ k ∈ cN ++ q)
  hcount : v.count false + (cN ++ q).length = vPre.count false
  hhead : (cN ++ q).head? = some seed

/-- The invariant of the outer component loop: the accumulated
components partition exactly the currently visited indices, are
nonempty, in-range, duplicate-free overall, each headed by its seed
which is its minimum, everything below a component's seed is visited,
and the seeds are strictly increasing. -/
structure OuterState (n : ℕ) (v : List Bool) (accN : List (List ℕ)) : Prop where
  hlen : v.length = n
  hvis : ∀ k, v.get? k = some true ↔ k ∈ accN.flatten
  hne : ∀ c ∈ accN, c ≠ []
  hlt : ∀ c ∈ accN, ∀ x ∈ c, x < n
  hnodup : accN.flatten.Nodup
  hmin : ∀ c ∈ accN, ∀ x ∈ c, c.headI ≤ x
  hheadvis : ∀ c ∈ accN, ∀ j, j < c.headI → v.get? j = some true
  hchain : List.Chain' (· < ·) (accN.map List.headI)

/-- A triangle with duplicate vertices, rejected by the constructor. -/
def triDup : Triangle := ⟨⟨0, 0, 0⟩, ⟨0, 0, 0⟩, ⟨1, 0, 0⟩⟩

/-- A third triangle on the edge (0,0,0)-(1,0,0) shared by `triP` and
`triQ`: makes the mesh non-manifold. -/
def triS : Triangle := ⟨⟨0, 0, 0⟩, ⟨1, 0, 0⟩, ⟨0, 0, 1⟩⟩

-- Lemmas and claim theorems.

lemma pointLt_asymm {p q : Point} (h : pointLt p q = true) : pointLt q p = false := by
  unfold pointLt at *
  split_ifs at * <;> simp_all <;> linarith

lemma pointLt_antisymm {p q : Point} (h1 : pointLt p q = false)
    (h2 : pointLt q p = false) : p = q := by
  unfold pointLt at *
  cases p; cases q
  simp only [Point.mk.injEq]
  split_ifs at h1 h2 <;> simp_all <;>
    refine ⟨by linarith, by linarith, by linarith⟩

/-- C8: `make_edge` is symmetric in its arguments, the result is in
canonical order (second endpoint not lexicographically below the first),
and the two edges hash identically under `EdgeHash` for every choice of
the underlying `std::hash<double>`. -/
theorem make_edge_canonical_spec (p q : Point) (hd : ℚ → ℕ) :
    make_edge p q = make_edge q p ∧
    pointLt (make_edge p q).2 (make_edge p q).1 = false ∧
    edgeHash hd (make_edge p q) = edgeHash hd (make_edge q p) := by
  have hcomm : make_edge p q = make_edge q p := by
    unfold make_edge
    cases h : pointLt p q with
    | true => rw [pointLt_asymm h]; simp
    | false =>
      cases h' : pointLt q p with
      | true => simp
      | false => rw [pointLt_antisymm h h']
  refine ⟨hcomm, ?_, by rw [hcomm]⟩
  unfold make_edge
  cases h : pointLt p q with
  | true => simpa using pointLt_asymm h
  | false => simpa using h

lemma toTriangleIndex_small {i : ℕ} (h : i < 2 ^ 31) : toTriangleIndex i = (i : ℤ) := by
  unfold toTriangleIndex
  rw [Nat.mod_eq_of_lt (by omega), if_pos (by omega)]

lemma int32ToSizeT_of_nonneg {z : ℤ} (h0 : 0 ≤ z) (h1 : z < 2 ^ 64) :
    (int32ToSizeT z : ℤ) = z := by
  unfold int32ToSizeT
  rw [Int.emod_eq_of_lt h0 h1, Int.toNat_of_nonneg h0]

lemma checkDegenerate_ok_iff (ts : List Triangle) (i : ℕ) :
    checkDegenerate i ts = .ok () ↔ ∀ t ∈ ts, isDegenerate t = false := by
  induction ts generalizing i with
  | nil => simp [checkDegenerate]
  | cons t rest ih =>
    unfold checkDegenerate
    cases h : isDegenerate t <;> simp [h, ih]

lemma checkDegenerate_error_index {ts : List Triangle} {i j : ℕ}
    (h : checkDegenerate i ts = .error (.degenerateGeometry j)) :
    i ≤ j ∧ ∃ t, ts.get? (j - i) = some t ∧ isDegenerate t = true := by
  induction ts generalizing i with
  | nil => simp [checkDegenerate] at h
  | cons t rest ih =>
    simp only [checkDegenerate] at h
    by_cases hd : isDegenerate t = true
    · rw [if_pos hd] at h
      simp only [Except.error.injEq, MeshError.degenerateGeometry.injEq] at h
      subst h
      exact ⟨le_rfl, t, by simp, hd⟩
    · rw [if_neg hd] at h
      obtain ⟨hij, t', ht', hdeg⟩ := ih h
      refine ⟨by omega, t', ?_, hdeg⟩
      have hrw : j - i = (j - (i + 1)) + 1 := by omega
      rw [hrw]
      simpa using ht'

lemma checkDegenerate_error_shape {ts : List Triangle} {i : ℕ} {e : MeshError}
    (h : checkDegenerate i ts = .error e) : ∃ j, e = .degenerateGeometry j := by
  induction ts generalizing i with
  | nil => simp [checkDegenerate] at h
  | cons t rest ih =>
    simp only [checkDegenerate] at h
    by_cases hd : isDegenerate t = true
    · rw [if_pos hd] at h
      exact ⟨i, by injection h with h'; rw [h']⟩
    · rw [if_neg hd] at h
      exact ih h

lemma checkDegenerate_error_exists {ts : List Triangle} {t : Triangle}
    (hmem : t ∈ ts) (hdeg : isDegenerate t = true) (i : ℕ) :
    ∃ j, checkDegenerate i ts = .error (.degenerateGeometry j) := by
  induction ts generalizing i with
  | nil => simp at hmem
  | cons t' rest ih =>
    simp only [checkDegenerate]
    by_cases hd : isDegenerate t' = true
    · exact ⟨i, by rw [if_pos hd]⟩
    · rw [if_neg hd]
      rcases List.mem_cons.mp hmem with heq | hmem'
      · subst heq; exact absurd hdeg hd
      · exact ih hmem' (i + 1)

lemma buildMesh_degenerate_iff (ts : List Triangle) (i : ℕ) :
    buildMesh ts = .error (.degenerateGeometry i) ↔
      ts.isEmpty = false ∧ checkDegenerate 0 ts = .error (.degenerateGeometry i) := by
  unfold buildMesh
  cases hE : ts.isEmpty with
  | true => simp
  | false =>
    rw [if_neg Bool.false_ne_true]
    cases hC : checkDegenerate 0 ts with
    | error e => simp
    | ok u =>
      cases u
      cases hB : buildEdgeToTriangleConnectivity ts <;> simp

/-- C7: mesh construction fails with `DegenerateGeometryError` exactly
when some parsed triangle has two identical vertices or a squared
cross-product magnitude below the fixed tolerance; the reported index is
an offending triangle's index, and triangles passing both checks never
trigger this error. -/
theorem degenerate_rejection_spec (ts : List Triangle) :
    (∀ i, buildMesh ts = .error (.degenerateGeometry i) →
      ∃ t, ts.get? i = some t ∧ isDegenerate t = true) ∧
    ((∃ i, buildMesh ts = .error (.degenerateGeometry i)) ↔
      ∃ t ∈ ts, isDegenerate t = true) ∧
    (∀ t : Triangle, isDegenerate t = true ↔
      (t.a = t.b ∨ t.b = t.c ∨ t.c = t.a ∨
        crossSq t < kTolerance * kTolerance)) := by
  refine ⟨?_, ⟨?_, ?_⟩, ?_⟩
  · intro i h
    obtain ⟨-, hrest⟩ :=
      checkDegenerate_error_index ((buildMesh_degenerate_iff ts i).mp h).2
    simpa using hrest
  · rintro ⟨i, h⟩
    obtain ⟨-, t, hget, hdeg⟩ :=
      checkDegenerate_error_index ((buildMesh_degenerate_iff ts i).mp h).2
    exact ⟨t, List.get?_mem (by simpa using hget), hdeg⟩
  · rintro ⟨t, hmem, hdeg⟩
    obtain ⟨j, hj⟩ := checkDegenerate_error_exists hmem hdeg 0
    refine ⟨j, (buildMesh_degenerate_iff ts j).mpr ⟨?_, hj⟩⟩
    cases ts with
    | nil => simp at hmem
    | cons a l => simp
  · intro t
    unfold isDegenerate hasDuplicateVertex
    simp [decide_eq_true_iff, or_assoc]

lemma registerTriangle_error_mono {m : EdgeMap} {i : ℕ} {t : Triangle}
    (h : registerTriangle m i t = .error ()) (rest : List Triangle) :
    registerAll m i (t :: rest) = .error () := by
  unfold registerAll
  rw [h]
  rfl

/-- C3: registering a third triangle on a fully occupied edge fails at
that very registration (`registerEdge` errors exactly when the looked-up
slots are both real triangles), the failure of a build over any leading
part of the triangle list is unaffected by the triangles after it
(incremental detection, not a postpass), and `buildMesh` reports
`NonManifoldMeshError` exactly when the triangles pass the degeneracy
screen but the incremental connectivity construction fails. -/
theorem nonmanifold_incremental_spec :
    (∀ (m : EdgeMap) (e : Edge) (i : ℤ),
      registerEdge m e i = .error () ↔
        ∃ s, findSlots m e = some s ∧ s.2 ≠ kBoundaryTriangleIndex) ∧
    (∀ (m : EdgeMap) (i : ℕ) (ts₁ ts₂ : List Triangle),
      registerAll m i ts₁ = .error () →
        registerAll m i (ts₁ ++ ts₂) = .error ()) ∧
    (∀ ts : List Triangle,
      buildMesh ts = .error .nonManifold ↔
        ts.isEmpty = false ∧ checkDegenerate 0 ts = .ok () ∧
          buildEdgeToTriangleConnectivity ts = .error ()) := by
  refine ⟨?_, ?_, ?_⟩
  · intro m e i
    unfold registerEdge
    cases h : findSlots m e with
    | none => simp
    | some s =>
      by_cases hs : s.2 = kBoundaryTriangleIndex <;> simp [hs]
  · intro m i ts₁ ts₂ h
    induction ts₁ generalizing m i with
    | nil => simp [registerAll] at h
    | cons t rest ih =>
      rw [List.cons_append]
      simp only [registerAll] at h ⊢
      cases ht : registerTriangle m i t with
      | error u => cases u; rfl
      | ok m' => rw [ht] at h; exact ih m' (i + 1) h
  · intro ts
    unfold buildMesh
    cases hE : ts.isEmpty with
    | true => simp
    | false =>
      rw [if_neg Bool.false_ne_true]
      cases hC : checkDegenerate 0 ts with
      | error e =>
        obtain ⟨j, hj⟩ := checkDegenerate_error_shape hC
        subst hj
        simp
      | ok u =>
        cases u
        cases hB : buildEdgeToTriangleConnectivity ts with
        | error u => cases u; simp
        | ok m => simp

lemma make_edge_cases (p q : Point) : make_edge p q = (p, q) ∨ make_edge p q = (q, p) := by
  unfold make_edge
  split_ifs <;> simp

lemma make_edge_eq_endpoints {p q r s : Point} (h : make_edge p q = make_edge r s) :
    (p = r ∧ q = s) ∨ (p = s ∧ q = r) := by
  rcases make_edge_cases p q with h1 | h1 <;>
    rcases make_edge_cases r s with h2 | h2 <;>
    rw [h1, h2] at h <;>
    simp only [Prod.mk.injEq] at h <;>
    tauto

lemma triangleEdges_nodup {t : Triangle} (h : hasDuplicateVertex t = false) :
    (triangleEdges t).Nodup := by
  unfold hasDuplicateVertex at h
  simp only [Bool.or_eq_false_iff, decide_eq_false_iff_not] at h
  obtain ⟨⟨hab, hbc⟩, hca⟩ := h
  unfold triangleEdges
  simp only [List.nodup_cons, List.mem_cons, List.mem_singleton, List.nodup_nil, and_true,
    not_or, List.not_mem_nil, not_false_iff]
  refine ⟨⟨fun h12 => ?_, fun h13 => ?_⟩, fun h23 => ?_⟩
  · rcases make_edge_eq_endpoints h12 with ⟨h1, h2⟩ | ⟨h1, h2⟩
    · exact hab h1
    · exact hca h1.symm
  · rcases make_edge_eq_endpoints h13 with ⟨h1, h2⟩ | ⟨h1, h2⟩
    · exact hca h1.symm
    · exact hbc h2
  · rcases make_edge_eq_endpoints h23 with ⟨h1, h2⟩ | ⟨h1, h2⟩
    · exact hbc h1
    · exact hab h1.symm

lemma findSlots_mem {m : EdgeMap} {e : Edge} {s : EdgeSlots}
    (h : findSlots m e = some s) : (e, s) ∈ m := by
  unfold findSlots at h
  cases hf : m.find? fun p => decide (p.1 = e) with
  | none => rw [hf] at h; cases h
  | some p =>
    rw [hf] at h
    have hp := List.find?_some hf
    have hmem := List.mem_of_find?_eq_some hf
    simp only [decide_eq_true_iff] at hp
    have hps : p.2 = s := by injection h
    rw [← hps, ← hp, Prod.mk.eta]
    exact hmem

lemma registerEdge_ok_inv {m : EdgeMap} {e : Edge} {i : ℤ} {m' : EdgeMap}
    (h : registerEdge m e i = .ok m') :
    (findSlots m e = none ∧ m' = m ++ [(e, (i, kBoundaryTriangleIndex))]) ∨
    (∃ s, findSlots m e = some s ∧ s.2 = kBoundaryTriangleIndex ∧
      m' = m.map fun p => if p.1 = e then (p.1, (p.2.1, i)) else p) := by
  cases hf : findSlots m e with
  | none =>
    simp only [registerEdge, hf] at h
    injection h with h'
    exact Or.inl ⟨rfl, h'.symm⟩
  | some s =>
    by_cases hs : s.2 = kBoundaryTriangleIndex
    · simp only [registerEdge, hf, hs, ne_eq, not_true_eq_false, if_false,
        Except.ok.injEq] at h
      exact Or.inr ⟨s, rfl, hs, h.symm⟩
    · simp only [registerEdge, hf, ne_eq, hs, not_false_eq_true, if_true] at h
      cases h

/-- Registration of edge `e` of the triangle at index `k` extends the
invariant, provided all entries currently keyed `e` stem from earlier
triangles. -/
lemma registerEdge_invariant {ts : List Triangle} {k : ℕ} {m m' : EdgeMap}
    {e : Edge} {t : Triangle}
    (hk : ts.get? k = some t) (he : e ∈ triangleEdges t)
    (hInv : ConnInvariant ts (k + 1) m)
    (hfresh : ∀ s, (e, s) ∈ m →
      ∃ i : ℕ, i < k ∧ s.1 = toTriangleIndex i ∧
        ∃ t0, ts.get? i = some t0 ∧ e ∈ triangleEdges t0)
    (h : registerEdge m e (toTriangleIndex k) = .ok m') :
    ConnInvariant ts (k + 1) m' ∧
      ∀ e' s', e' ≠ e → (e', s') ∈ m' → (e', s') ∈ m := by
  rcases registerEdge_ok_inv h with ⟨-, hm'⟩ | ⟨s, hfind, -, hm'⟩
  · subst hm'
    constructor
    · intro e' s' hmem
      rcases List.mem_append.mp hmem with hold | hnew
      · exact hInv e' s' hold
      · simp only [List.mem_singleton, Prod.mk.injEq] at hnew
        obtain ⟨he', hs'⟩ := hnew
        subst he'; subst hs'
        exact ⟨k, by omega, rfl, ⟨t, hk, he⟩, Or.inl rfl⟩
    · intro e' s' hne hmem
      rcases List.mem_append.mp hmem with hold | hnew
      · exact hold
      · simp only [List.mem_singleton, Prod.mk.injEq] at hnew
        exact absurd hnew.1 hne
  · subst hm'
    constructor
    · intro e' s' hmem
      rcases List.mem_map.mp hmem with ⟨p, hp, hfp⟩
      by_cases hpe : p.1 = e
      · rw [if_pos hpe] at hfp
        injection hfp with h1 h2
        subst h1
        subst h2
        have hpm : (e, p.2) ∈ m := by
          rw [← hpe, Prod.mk.eta]; exact hp
        obtain ⟨i, hik, hs1, hedge⟩ := hfresh p.2 hpm
        refine ⟨i, by omega, hs1, ?_, Or.inr ⟨k, hik, by omega, rfl, t, ?_, ?_⟩⟩
        · rw [hpe]; exact hedge
        · exact hk
        · rw [hpe]; exact he
      · rw [if_neg hpe] at hfp
        exact hInv e' s' (hfp ▸ hp)
    · intro e' s' hne hmem
      rcases List.mem_map.mp hmem with ⟨p, hp, hfp⟩
      by_cases hpe : p.1 = e
      · rw [if_pos hpe] at hfp
        injection hfp with h1 h2
        exact absurd (h1.symm.trans hpe) hne
      · rw [if_neg hpe] at hfp
        exact hfp ▸ hp

lemma ConnInvariant.mono {ts : List Triangle} {k : ℕ} {m : EdgeMap}
    (h : ConnInvariant ts k m) : ConnInvariant ts (k + 1) m := by
  intro e s hm
  obtain ⟨i, hik, h1, h2, h3⟩ := h e s hm
  refine ⟨i, by omega, h1, h2, ?_⟩
  rcases h3 with h3 | ⟨j, hij, hjk, h4⟩
  · exact Or.inl h3
  · exact Or.inr ⟨j, hij, by omega, h4⟩

lemma registerTriangle_ok_inv {m : EdgeMap} {k : ℕ} {t : Triangle} {m' : EdgeMap}
    (h : registerTriangle m k t = .ok m') :
    ∃ m1 m2, registerEdge m (make_edge t.a t.b) (toTriangleIndex k) = .ok m1 ∧
      registerEdge m1 (make_edge t.b t.c) (toTriangleIndex k) = .ok m2 ∧
      registerEdge m2 (make_edge t.c t.a) (toTriangleIndex k) = .ok m' := by
  unfold registerTriangle at h
  cases h1 : registerEdge m (make_edge t.a t.b) (toTriangleIndex k) with
  | error u => rw [h1] at h; cases h
  | ok m1 =>
    rw [h1] at h
    have hA : (do
        let m2 ← registerEdge m1 (make_edge t.b t.c) (toTriangleIndex k)
        registerEdge m2 (make_edge t.c t.a) (toTriangleIndex k)) = Except.ok m' := h
    cases h2 : registerEdge m1 (make_edge t.b t.c) (toTriangleIndex k) with
    | error u => rw [h2] at hA; cases hA
    | ok m2 =>
      rw [h2] at hA
      have hB : registerEdge m2 (make_edge t.c t.a) (toTriangleIndex k) =
        Except.ok m' := hA
      exact ⟨m1, m2, rfl, h2, hB⟩

lemma registerTriangle_invariant {ts : List Triangle} {k : ℕ} {m m' : EdgeMap}
    {t : Triangle}
    (hk : ts.get? k = some t) (hnd : (triangleEdges t).Nodup)
    (hInv : ConnInvariant ts k m)
    (h : registerTriangle m k t = .ok m') : ConnInvariant ts (k + 1) m' := by
  obtain ⟨m1, m2, h1, h2, h3⟩ := registerTriangle_ok_inv h
  have hne : make_edge t.a t.b ≠ make_edge t.b t.c ∧
      make_edge t.a t.b ≠ make_edge t.c t.a ∧
      make_edge t.b t.c ≠ make_edge t.c t.a := by
    unfold triangleEdges at hnd
    simp only [List.nodup_cons, List.mem_cons, List.mem_singleton, not_or] at hnd
    exact ⟨hnd.1.1, hnd.1.2.1, hnd.2.1.1⟩
  have he1 : make_edge t.a t.b ∈ triangleEdges t := by simp [triangleEdges]
  have he2 : make_edge t.b t.c ∈ triangleEdges t := by simp [triangleEdges]
  have he3 : make_edge t.c t.a ∈ triangleEdges t := by simp [triangleEdges]
  have hfresh0 : ∀ (e : Edge) (s : EdgeSlots), (e, s) ∈ m →
      ∃ i : ℕ, i < k ∧ s.1 = toTriangleIndex i ∧
        ∃ t0, ts.get? i = some t0 ∧ e ∈ triangleEdges t0 := by
    intro e s hm
    obtain ⟨i, hik, hs1, hedge, -⟩ := hInv e s hm
    exact ⟨i, hik, hs1, hedge⟩
  obtain ⟨hInv1, hpres1⟩ :=
    registerEdge_invariant hk he1 hInv.mono (hfresh0 _) h1
  obtain ⟨hInv2, hpres2⟩ :=
    registerEdge_invariant hk he2 hInv1
      (fun s hs => hfresh0 _ s (hpres1 _ s hne.1.symm hs)) h2
  obtain ⟨hInv3, -⟩ :=
    registerEdge_invariant hk he3 hInv2
      (fun s hs =>
        hfresh0 _ s (hpres1 _ s hne.2.1.symm (hpres2 _ s hne.2.2.symm hs))) h3
  exact hInv3

lemma registerAll_invariant {ts : List Triangle}
    (hdup : ∀ t ∈ ts, (triangleEdges t).Nodup) :
    ∀ (rest : List Triangle) (k : ℕ) (m : EdgeMap), ts.drop k = rest →
      ConnInvariant ts k m →
      ∀ m', registerAll m k rest = .ok m' →
        ConnInvariant ts (k + rest.length) m' := by
  intro rest
  induction rest with
  | nil =>
    intro k m hdrop hInv m' h
    simp only [registerAll, Except.ok.injEq] at h
    subst h
    simpa using hInv
  | cons t rest' ih =>
    intro k m hdrop hInv m' h
    have hk : ts.get? k = some t := by
      have h0 : (ts.drop k).get? 0 = ts.get? (k + 0) := List.get?_drop ts k 0
      rw [hdrop] at h0
      simpa using h0.symm
    have hdrop' : ts.drop (k + 1) = rest' := by
      have : ts.drop (k + 1) = (ts.drop k).drop 1 := by
        rw [List.drop_drop]
      rw [this, hdrop]
      rfl
    simp only [registerAll] at h
    cases h1 : registerTriangle m k t with
    | error u => rw [h1] at h; cases h
    | ok m1 =>
      rw [h1] at h
      have hmem : t ∈ ts := ts.get?_mem hk
      have hInv1 := registerTriangle_invariant hk (hdup t hmem) hInv h1
      have := ih (k + 1) m1 hdrop' hInv1 m' h
      have harith : k + 1 + rest'.length = k + (rest'.length + 1) := by omega
      rw [harith] at this
      simpa using this

lemma buildMesh_ok_inv {ts : List Triangle} {mesh : TriangleMesh}
    (h : buildMesh ts = .ok mesh) :
    mesh.triangles = ts ∧ checkDegenerate 0 ts = .ok () ∧
      registerAll [] 0 ts = .ok mesh.edge_connectivity := by
  unfold buildMesh at h
  cases hE : ts.isEmpty with
  | true => rw [hE] at h; cases h
  | false =>
    rw [hE, if_neg Bool.false_ne_true] at h
    cases hC : checkDegenerate 0 ts with
    | error e => rw [hC] at h; cases h
    | ok u =>
      cases u
      rw [hC] at h
      cases hB : buildEdgeToTriangleConnectivity ts with
      | error u => rw [hB] at h; cases h
      | ok m =>
        rw [hB] at h
        injection h with h'
        subst h'
        exact ⟨rfl, rfl, hB⟩

lemma buildMesh_nodupEdges {ts : List Triangle}
    (hC : checkDegenerate 0 ts = .ok ()) :
    ∀ t ∈ ts, (triangleEdges t).Nodup := by
  intro t hmem
  have hd := (checkDegenerate_ok_iff ts 0).mp hC t hmem
  unfold isDegenerate at hd
  exact triangleEdges_nodup (Bool.or_eq_false_iff.mp hd).1

/-- C10: after a successful construction, every connectivity entry's
first slot is a valid triangle index (never the boundary placeholder) of
a triangle that has that canonical edge, and the second slot is either
the boundary placeholder or a valid, strictly larger triangle index of a
later triangle with that edge. -/
theorem edge_connectivity_invariant (ts : List Triangle) (mesh : TriangleMesh)
    (hok : buildMesh ts = .ok mesh) (hsize : ts.length ≤ 2 ^ 31) :
    ∀ e s0 s1, (e, (s0, s1)) ∈ mesh.edge_connectivity →
      ∃ i : ℕ, i < ts.length ∧ s0 = (i : ℤ) ∧
        (∃ t, ts.get? i = some t ∧ e ∈ triangleEdges t) ∧
        (s1 = kBoundaryTriangleIndex ∨
          ∃ j : ℕ, j < ts.length ∧ s1 = (j : ℤ) ∧ s0 < s1 ∧
            ∃ t', ts.get? j = some t' ∧ e ∈ triangleEdges t') := by
  obtain ⟨-, hC, hB⟩ := buildMesh_ok_inv hok
  have hInv0 : ConnInvariant ts 0 ([] : EdgeMap) := by
    intro e s hm; cases hm
  have hInv := registerAll_invariant (buildMesh_nodupEdges hC) ts 0 [] rfl hInv0
    mesh.edge_connectivity hB
  intro e s0 s1 hmem
  obtain ⟨i, hik, hs0, hedge, hrest⟩ := hInv e (s0, s1) hmem
  simp only [Nat.zero_add] at hik
  have hcast : toTriangleIndex i = (i : ℤ) := toTriangleIndex_small (by omega)
  refine ⟨i, hik, by simpa [hcast] using hs0, hedge, ?_⟩
  rcases hrest with hb | ⟨j, hij, hjk, hs1, hedge'⟩
  · exact Or.inl hb
  · simp only [Nat.zero_add] at hjk
    have hcast' : toTriangleIndex j = (j : ℤ) := toTriangleIndex_small (by omega)
    refine Or.inr ⟨j, hjk, by simpa [hcast'] using hs1, ?_, hedge'⟩
    have h0 : s0 = (i : ℤ) := by simpa [hcast] using hs0
    have h1 : s1 = (j : ℤ) := by simpa [hcast'] using hs1
    rw [h0, h1]
    exact_mod_cast hij

lemma triP_not_degenerate : isDegenerate triP = false := by
  norm_num [isDegenerate, hasDuplicateVertex, crossSq, kTolerance, triP]

lemma triQ_not_degenerate : isDegenerate triQ = false := by
  norm_num [isDegenerate, hasDuplicateVertex, crossSq, kTolerance, triQ]

lemma triR_not_degenerate : isDegenerate triR = false := by
  norm_num [isDegenerate, hasDuplicateVertex, crossSq, kTolerance, triR]

lemma buildMesh_triP : buildMesh [triP] = .ok ⟨[triP], connOf [triP]⟩ := by
  have h1 : checkDegenerate 0 [triP] = .ok () := by
    simp [checkDegenerate, triP_not_degenerate]
  unfold buildMesh
  rw [if_neg (by decide : ¬([triP].isEmpty = true)), h1]
  rfl

lemma buildMesh_triPQ : buildMesh [triP, triQ] = .ok ⟨[triP, triQ], connOf [triP, triQ]⟩ := by
  have h1 : checkDegenerate 0 [triP, triQ] = .ok () := by
    simp [checkDegenerate, triP_not_degenerate, triQ_not_degenerate]
  unfold buildMesh
  rw [if_neg (by decide : ¬([triP, triQ].isEmpty = true)), h1]
  rfl

lemma buildMesh_triPR : buildMesh [triP, triR] = .ok ⟨[triP, triR], connOf [triP, triR]⟩ := by
  have h1 : checkDegenerate 0 [triP, triR] = .ok () := by
    simp [checkDegenerate, triP_not_degenerate, triR_not_degenerate]
  unfold buildMesh
  rw [if_neg (by decide : ¬([triP, triR].isEmpty = true)), h1]
  rfl

/-- C9: for every mesh and every seed at or beyond the triangle count,
`reorient_inconsistent_triangles` returns the empty list and no error. -/
theorem reorient_seed_out_of_range (mesh : TriangleMesh) (seed : ℕ)
    (h : mesh.triangles.length ≤ seed) :
    reorient_inconsistent_triangles mesh seed = .ok [] := by
  unfold reorient_inconsistent_triangles
  rw [if_pos h]

/-- Witness for C9 at a concrete one-triangle mesh and seed 1. -/
theorem reorient_seed_out_of_range_witness :
    reorient_inconsistent_triangles ⟨[triP], connOf [triP]⟩ 1 = .ok [] :=
  reorient_seed_out_of_range ⟨[triP], connOf [triP]⟩ 1 (by decide)

/-- C1 is refuted by the code: on the valid single-triangle mesh, the
orientation BFS does not skip the seed's boundary edges — the source's
degree test compares `std::array::size()` (the constant 2) instead of
inspecting the second slot — so the neighbor index computed from the
boundary placeholder is `2^64 - 1`, far beyond the triangle count 1, and
the visited-vector read at it is out of range (modelled error). -/
theorem reorient_boundary_edge_oob :
    buildMesh [triP] = .ok ⟨[triP], connOf [triP]⟩ ∧
    int32ToSizeT kBoundaryTriangleIndex = 2 ^ 64 - 1 ∧
    findSlots (connOf [triP]) (make_edge triP.a triP.b) =
      some (0, kBoundaryTriangleIndex) ∧
    reorient_inconsistent_triangles ⟨[triP], connOf [triP]⟩ 0 = .error () :=
  ⟨buildMesh_triP, by decide, rfl, rfl⟩

/-- C6: under valid component indices, `is_connected_component_closed`
returns `true` exactly when every listed triangle's three canonical
edges all map to an entry whose second slot holds a real triangle
(degree exactly two); a missing edge or a boundary slot classifies the
component open (`false`), and no error occurs. -/
theorem is_closed_component_spec (mesh : TriangleMesh) (component : List ℤ)
    (hvalid : ∀ tiz ∈ component, int32ToSizeT tiz < mesh.triangles.length) :
    (is_connected_component_closed mesh component = .ok true ↔
      ∀ tiz ∈ component, ∀ tri,
        mesh.triangles.get? (int32ToSizeT tiz) = some tri →
          ∀ e ∈ triangleEdges tri,
            ∃ deg, findSlots mesh.edge_connectivity e = some deg ∧
              deg.2 ≠ kBoundaryTriangleIndex) ∧
    (is_connected_component_closed mesh component = .ok true ∨
      is_connected_component_closed mesh component = .ok false) := by
  have hedge : ∀ e, edgeClosed mesh.edge_connectivity e = true ↔
      ∃ deg, findSlots mesh.edge_connectivity e = some deg ∧
        deg.2 ≠ kBoundaryTriangleIndex := by
    intro e
    unfold edgeClosed
    cases h : findSlots mesh.edge_connectivity e <;> simp
  induction component with
  | nil => simp [is_connected_component_closed]
  | cons tiz rest ih =>
    have htiz : int32ToSizeT tiz < mesh.triangles.length :=
      hvalid tiz (List.mem_cons_self tiz rest)
    obtain ⟨tri, htri⟩ : ∃ tri,
        mesh.triangles.get? (int32ToSizeT tiz) = some tri :=
      ⟨_, List.get?_eq_get htiz⟩
    have hvalid' : ∀ x ∈ rest, int32ToSizeT x < mesh.triangles.length :=
      fun x hx => hvalid x (List.mem_cons_of_mem tiz hx)
    obtain ⟨ih1, ih2⟩ := ih hvalid'
    simp only [is_connected_component_closed, htri]
    by_cases hall : (triangleEdges tri).all (edgeClosed mesh.edge_connectivity) = true
    · rw [if_pos hall]
      constructor
      · rw [ih1]
        constructor
        · intro hrest x hx
          rcases List.mem_cons.mp hx with heq | hx'
          · subst heq
            intro tri' htri' e he
            rw [htri] at htri'
            injection htri' with htri'
            subst htri'
            exact (hedge e).mp (List.all_eq_true.mp hall e he)
          · exact hrest x hx'
        · intro hfull x hx
          exact hfull x (List.mem_cons_of_mem tiz hx)
      · exact ih2
    · rw [if_neg hall]
      constructor
      · simp only [Except.ok.injEq, Bool.false_eq_true, false_iff]
        intro hfull
        apply hall
        rw [List.all_eq_true]
        intro e he
        exact (hedge e).mpr
          (hfull tiz (List.mem_cons_self tiz rest) tri htri e he)
      · exact Or.inr rfl

/-- Witness for C6 at the one-triangle mesh and its component `[0]` (all
three edges are boundary, so the classification is `open`). -/
theorem is_closed_component_spec_witness :
    (is_connected_component_closed ⟨[triP], connOf [triP]⟩ [0] = .ok true ↔
      ∀ tiz ∈ [(0 : ℤ)], ∀ tri,
        (⟨[triP], connOf [triP]⟩ : TriangleMesh).triangles.get? (int32ToSizeT tiz) =
            some tri →
          ∀ e ∈ triangleEdges tri,
            ∃ deg, findSlots (connOf [triP]) e = some deg ∧
              deg.2 ≠ kBoundaryTriangleIndex) ∧
    (is_connected_component_closed ⟨[triP], connOf [triP]⟩ [0] = .ok true ∨
      is_connected_component_closed ⟨[triP], connOf [triP]⟩ [0] = .ok false) :=
  is_closed_component_spec ⟨[triP], connOf [triP]⟩ [0] (by decide)

lemma computeAABBs_of_forall₂ {mesh : TriangleMesh} {closed : List (List ℤ)}
    {boxes : List AxisAlignedBoundingBox}
    (h : List.Forall₂
      (fun c b => compute_component_aabb mesh c kEpsilon = .ok b) closed boxes) :
    computeAABBs mesh closed = .ok boxes := by
  induction h with
  | nil => rfl
  | cons hcb htail ih => simp only [computeAABBs, hcb, ih]

/-- C4: with fewer than two closed components `identify_voids` returns
the empty list (no error, before any box computation); otherwise it
returns, in index order, exactly those components whose padded box is
contained — per `aabb_contains` with the fixed tolerance — in the padded
box of at least one other component, self-comparison excluded.  The
final conjunct restates the selection test as the existence of another
component's box containing the component's box. -/
theorem identify_voids_spec (mesh : TriangleMesh) (closed : List (List ℤ)) :
    (closed.length < 2 → identify_voids mesh closed = .ok []) ∧
    (∀ boxes : List AxisAlignedBoundingBox,
      List.Forall₂
        (fun c b => compute_component_aabb mesh c kEpsilon = .ok b) closed boxes →
      2 ≤ closed.length →
      identify_voids mesh closed =
        .ok ((((List.range closed.length).filter fun i =>
            (List.range closed.length).any fun j =>
              decide (j ≠ i) &&
                aabb_contains (boxes.getD j defaultAABB) (boxes.getD i defaultAABB)
                  kEpsilon)).map
          fun i => closed.getD i [])) ∧
    (∀ (boxes : List AxisAlignedBoundingBox) (i : ℕ),
      ((List.range boxes.length).any fun j =>
          decide (j ≠ i) &&
            aabb_contains (boxes.getD j defaultAABB) (boxes.getD i defaultAABB)
              kEpsilon) = true ↔
        ∃ j bj, boxes.get? j = some bj ∧ j ≠ i ∧
          aabb_contains bj (boxes.getD i defaultAABB) kEpsilon = true) := by
  refine ⟨?_, ?_, ?_⟩
  · intro h
    unfold identify_voids
    rw [if_pos h]
  · intro boxes hfa h2
    have hlen := List.Forall₂.length_eq hfa
    unfold identify_voids
    rw [if_neg (by omega), computeAABBs_of_forall₂ hfa]
  · intro boxes i
    rw [List.any_eq_true]
    constructor
    · rintro ⟨j, hjmem, hj⟩
      rw [Bool.and_eq_true, decide_eq_true_iff] at hj
      obtain ⟨hne, hcont⟩ := hj
      have hjlt : j < boxes.length := List.mem_range.mp hjmem
      refine ⟨j, boxes.get ⟨j, hjlt⟩, List.get?_eq_get hjlt, hne, ?_⟩
      have hgd : boxes.getD j defaultAABB = boxes.get ⟨j, hjlt⟩ := by
        rw [List.getD_eq_get?, List.get?_eq_get hjlt]
        rfl
      rwa [hgd] at hcont
    · rintro ⟨j, bj, hget, hne, hcont⟩
      obtain ⟨hjlt, hbj⟩ := List.get?_eq_some.mp hget
      refine ⟨j, List.mem_range.mpr hjlt, ?_⟩
      rw [Bool.and_eq_true, decide_eq_true_iff]
      refine ⟨hne, ?_⟩
      have hgd : boxes.getD j defaultAABB = bj := by
        rw [List.getD_eq_get?, hget]
        rfl
      rwa [hgd]

/-- Witness for C4 on the two-triangle two-component mesh: the
fewer-than-two branch, and the full characterization with the two
components' concrete padded boxes. -/
theorem identify_voids_spec_witness :
    identify_voids ⟨[triP, triR], connOf [triP, triR]⟩ [] = .ok [] ∧
    identify_voids ⟨[triP, triR], connOf [triP, triR]⟩ [[0], [1]] =
      .ok ((((List.range ([[(0 : ℤ)], [1]] : List (List ℤ)).length).filter fun i =>
          (List.range ([[(0 : ℤ)], [1]] : List (List ℤ)).length).any fun j =>
            decide (j ≠ i) &&
              aabb_contains ([boxP, boxR].getD j defaultAABB)
                ([boxP, boxR].getD i defaultAABB) kEpsilon)).map
        fun i => ([[(0 : ℤ)], [1]] : List (List ℤ)).getD i []) :=
  ⟨(identify_voids_spec ⟨[triP, triR], connOf [triP, triR]⟩ []).1 (by decide),
   (identify_voids_spec ⟨[triP, triR], connOf [triP, triR]⟩ [[0], [1]]).2.1
     [boxP, boxR]
     (List.Forall₂.cons rfl (List.Forall₂.cons rfl List.Forall₂.nil))
     (by decide)⟩

/-- C2 is refuted by the code: on the two-triangle mesh whose triangles
traverse their shared edge in the same direction (the repository's own
test input, which expects exactly the flipped copy of the second
triangle), the orientation BFS reaches a boundary edge of the seed,
computes the out-of-range neighbor index and aborts with the modelled
out-of-bounds error instead of returning the one flipped triangle. -/
theorem reorient_two_triangles_oob :
    buildMesh [triP, triQ] = .ok ⟨[triP, triQ], connOf [triP, triQ]⟩ ∧
    has_directed_edge triP (make_edge triP.a triP.b).1 (make_edge triP.a triP.b).2 = true ∧
    has_directed_edge triQ (make_edge triP.a triP.b).1 (make_edge triP.a triP.b).2 = true ∧
    flip_triangle triQ = ⟨⟨0, 0, 0⟩, ⟨1, 1, 0⟩, ⟨1, 0, 0⟩⟩ ∧
    reorient_inconsistent_triangles ⟨[triP, triQ], connOf [triP, triQ]⟩ 0 = .error () :=
  ⟨buildMesh_triPQ, by decide, by decide, by decide, rfl⟩

lemma count_false_set_true : ∀ (l : List Bool) (n : ℕ), l.get? n = some false →
    (l.set n true).count false + 1 = l.count false := by
  intro l
  induction l with
  | nil => intro n h; cases h
  | cons b tl ih =>
    intro n h
    cases n with
    | zero =>
      injection h with h'
      subst h'
      simp [List.set, List.count_cons]
    | succ n =>
      have h' : tl.get? n = some false := h
      have := ih n h'
      simp only [List.set, List.count_cons]
      omega

lemma get?_set_true_iff {l : List Bool} {x : ℕ} (hx : x < l.length) :
    ∀ k, (l.set x true).get? k = some true ↔ (l.get? k = some true ∨ k = x) := by
  intro k
  by_cases hk : k = x
  · subst hk
    simp [List.get?_eq_getElem?, List.getElem?_set_self hx]
  · simp [List.get?_eq_getElem?, List.getElem?_set_ne (fun h => hk h.symm), hk]

lemma int32ToSizeT_lt {z : ℤ} {n : ℕ} (h0 : 0 ≤ z) (h1 : z < (n : ℤ))
    (hn : n ≤ 2 ^ 31) : int32ToSizeT z < n := by
  have h64 : z < 2 ^ 64 := by
    have : (n : ℤ) ≤ (2 : ℤ) ^ 31 := by exact_mod_cast hn
    omega
  have := int32ToSizeT_of_nonneg h0 h64
  omega

lemma componentStep_skip_none {conn : EdgeMap} {ti : ℕ} {st : List Bool × List ℕ}
    {e : Edge} (h : findSlots conn e = none) :
    componentStep conn ti st e = .ok st := by
  simp only [componentStep, h]

lemma componentStep_skip_boundary {conn : EdgeMap} {ti : ℕ} {st : List Bool × List ℕ}
    {e : Edge} {deg : EdgeSlots} (h : findSlots conn e = some deg)
    (hb : deg.2 = kBoundaryTriangleIndex) :
    componentStep conn ti st e = .ok st := by
  simp only [componentStep, h, if_pos hb]

lemma componentStep_skip_visited {conn : EdgeMap} {ti : ℕ} {st : List Bool × List ℕ}
    {e : Edge} {deg : EdgeSlots} (h : findSlots conn e = some deg)
    (hb : ¬deg.2 = kBoundaryTriangleIndex)
    (hget : st.1.get? (componentNeighbor deg ti) = some true) :
    componentStep conn ti st e = .ok st := by
  simp only [componentStep, h, if_neg hb, hget]

lemma componentStep_push {conn : EdgeMap} {ti : ℕ} {st : List Bool × List ℕ}
    {e : Edge} {deg : EdgeSlots} (h : findSlots conn e = some deg)
    (hb : ¬deg.2 = kBoundaryTriangleIndex)
    (hget : st.1.get? (componentNeighbor deg ti) = some false) :
    componentStep conn ti st e =
      .ok (st.1.set (componentNeighbor deg ti) true, st.2 ++ [componentNeighbor deg ti]) := by
  simp only [componentStep, h, if_neg hb, hget]

/-- A single edge iteration of the component BFS either leaves the state
unchanged or marks one fresh in-range triangle and appends it to the
pending pushes. -/
lemma componentStep_cases {n : ℕ} {conn : EdgeMap} (hconn : SlotsBounded n conn)
    (hn : n ≤ 2 ^ 31) {ti : ℕ} {v : List Bool} {ps : List ℕ} (e : Edge)
    (hlen : v.length = n) :
    componentStep conn ti (v, ps) e = .ok (v, ps) ∨
    ∃ x, x < n ∧ v.get? x = some false ∧
      componentStep conn ti (v, ps) e = .ok (v.set x true, ps ++ [x]) := by
  cases hf : findSlots conn e with
  | none => exact Or.inl (componentStep_skip_none hf)
  | some deg =>
    obtain ⟨⟨h10, h1n⟩, h2⟩ := hconn e deg (findSlots_mem hf)
    by_cases hb : deg.2 = kBoundaryTriangleIndex
    · exact Or.inl (componentStep_skip_boundary hf hb)
    · have h2' : 0 ≤ deg.2 ∧ deg.2 < (n : ℤ) := h2.resolve_left hb
      have hxlt : componentNeighbor deg ti < n := by
        unfold componentNeighbor
        split_ifs
        · exact int32ToSizeT_lt h2'.1 h2'.2 hn
        · exact int32ToSizeT_lt h10 h1n hn
      have hxlen : componentNeighbor deg ti < v.length := by omega
      obtain ⟨b, hb'⟩ : ∃ b, v.get? (componentNeighbor deg ti) = some b :=
        ⟨v.get ⟨_, hxlen⟩, List.get?_eq_get hxlen⟩
      cases b with
      | true => exact Or.inl (componentStep_skip_visited hf hb hb')
      | false => exact Or.inr ⟨_, hxlt, hb', componentStep_push hf hb hb'⟩

/-- The three-edge loop of the component BFS: it succeeds, only turns
fresh in-range entries to visited, and appends exactly those entries to
the pushes. -/
lemma componentVisit_run {n : ℕ} {conn : EdgeMap} (hconn : SlotsBounded n conn)
    (hn : n ≤ 2 ^ 31) {ti : ℕ} :
    ∀ (es : List Edge) (v : List Bool) (ps : List ℕ), v.length = n →
      ∃ v' new, componentVisit conn ti es (v, ps) = .ok (v', ps ++ new) ∧
        v'.length = n ∧ new.Nodup ∧
        (∀ x ∈ new, x < n ∧ v.get? x = some false) ∧
        (∀ k, v'.get? k = some true ↔ (v.get? k = some true ∨ k ∈ new)) ∧
        v'.count false + new.length = v.count false := by
  intro es
  induction es with
  | nil =>
    intro v ps hlen
    exact ⟨v, [], by simp [componentVisit], hlen, List.nodup_nil, by simp, by simp, by simp⟩
  | cons e es ih =>
    intro v ps hlen
    rcases @componentStep_cases n conn hconn hn ti v ps e hlen with hskip | ⟨x, hxn, hxf, hpush⟩
    · obtain ⟨v', new, hrun, hlen', hnd, hmem, hvis, hcnt⟩ := ih v ps hlen
      exact ⟨v', new, by simp only [componentVisit, hskip, hrun], hlen', hnd, hmem, hvis, hcnt⟩
    · have hxlen : x < v.length := by omega
      have hlen1 : (v.set x true).length = n := by simp [hlen]
      obtain ⟨v', new, hrun, hlen', hnd, hmem, hvis, hcnt⟩ := ih (v.set x true) (ps ++ [x]) hlen1
      have hset := get?_set_true_iff hxlen
      refine ⟨v', x :: new, ?_, hlen', ?_, ?_, ?_, ?_⟩
      · simp only [componentVisit, hpush, hrun, List.append_assoc, List.singleton_append]
      · refine List.nodup_cons.mpr ⟨fun hxnew => ?_, hnd⟩
        have hfalse := (hmem x hxnew).2
        have htrue : (v.set x true).get? x = some true := by
          simp [List.get?_eq_getElem?, List.getElem?_set_self hxlen]
        rw [htrue] at hfalse
        cases hfalse
      · intro y hy
        rcases List.mem_cons.mp hy with heq | hy'
        · rw [heq]
          exact ⟨hxn, hxf⟩
        · obtain ⟨hyn, hyf⟩ := hmem y hy'
          refine ⟨hyn, ?_⟩
          by_cases hyx : y = x
          · rw [hyx] at hyf
            have hx : (v.set x true).get? x = some true := by
              simp [List.get?_eq_getElem?, List.getElem?_set_self hxlen]
            rw [hx] at hyf
            cases hyf
          · rwa [List.get?_eq_getElem?, List.getElem?_set_ne (fun h => hyx h.symm),
              ← List.get?_eq_getElem?] at hyf
      · intro k
        rw [hvis k, hset k, List.mem_cons]
        tauto
      · have : (v.set x true).count false + 1 = v.count false :=
          count_false_set_true v x hxf
        simp only [List.length_cons]
        omega

lemma componentBFSAux_run {ts : List Triangle} {conn : EdgeMap}
    (hconn : SlotsBounded ts.length conn) (hn : ts.length ≤ 2 ^ 31) :
    ∀ (fuel : ℕ) (vPre v : List Bool) (q cN : List ℕ) (seed : ℕ),
      BfsState ts.length seed vPre v q cN →
      2 * v.count false + q.length < fuel →
      ∃ v' cN', componentBFSAux ts conn fuel v q (cN.map toTriangleIndex) =
          some (.ok (v', cN'.map toTriangleIndex)) ∧
        BfsState ts.length seed vPre v' [] cN' := by
  intro fuel
  induction fuel with
  | zero => intro vPre v q cN seed hst hm; omega
  | succ fuel ih =>
    intro vPre v q cN seed hst hm
    cases q with
    | nil => exact ⟨v, cN, rfl, hst⟩
    | cons ti rest =>
      have htimem : ti ∈ cN ++ ti :: rest :=
        List.mem_append_right _ (List.mem_cons_self ti rest)
      have htin : ti < ts.length := hst.hlt ti htimem
      obtain ⟨v', new, hrun, hlen', hnd, hmem, hvisF, hcnt⟩ :=
        @componentVisit_run ts.length conn hconn hn ti
          (triangleEdges (ts.get ⟨ti, htin⟩)) v [] hst.hlen
      have hmemT : ∀ x ∈ cN ++ ti :: rest, v.get? x = some true :=
        fun x hx => (hst.hvis x).mpr (Or.inr hx)
      have hA : (cN ++ [ti]) ++ (rest ++ new) = (cN ++ ti :: rest) ++ new := by
        simp
      have hnewfresh : ∀ x ∈ new, vPre.get? x = some false := by
        intro x hx
        obtain ⟨hxn, hxf⟩ := hmem x hx
        have hxlen : x < vPre.length := by
          rw [hst.hlenPre]; exact hxn
        obtain ⟨b, hb⟩ : ∃ b, vPre.get? x = some b :=
          ⟨vPre.get ⟨x, hxlen⟩, List.get?_eq_get hxlen⟩
        cases b with
        | false => exact hb
        | true =>
          have := (hst.hvis x).mp ((hst.hvis x).mpr (Or.inl hb))
          have hvx : v.get? x = some true := (hst.hvis x).mpr (Or.inl hb)
          rw [hvx] at hxf
          cases hxf
      have hdisj : List.Disjoint (cN ++ ti :: rest) new := by
        intro x hx hxnew
        have h1 := hmemT x hx
        have h2 := (hmem x hxnew).2
        rw [h1] at h2
        cases h2
      have hst' : BfsState ts.length seed vPre v' (rest ++ new) (cN ++ [ti]) := by
        refine ⟨hlen', hst.hlenPre, ?_, ?_, ?_, ?_, ?_, ?_⟩
        · intro x hx
          rw [hA] at hx
          rcases List.mem_append.mp hx with hx1 | hx2
          · exact hst.hlt x hx1
          · exact (hmem x hx2).1
        · intro x hx
          rw [hA] at hx
          rcases List.mem_append.mp hx with hx1 | hx2
          · exact hst.hfresh x hx1
          · exact hnewfresh x hx2
        · rw [hA]
          exact List.Nodup.append hst.hnodup hnd hdisj
        · intro k
          rw [hvisF k, hst.hvis k]
          simp only [List.mem_append, List.mem_cons, List.mem_singleton]
          tauto
        · rw [hA]
          simp only [List.length_append]
          have h0 := hst.hcount
          simp only [List.length_append] at h0
          omega
        · rw [hA]
          have hh := hst.hhead
          cases hAc : cN ++ ti :: rest with
          | nil => rw [hAc] at hh; cases hh
          | cons a as =>
            rw [hAc] at hh
            simpa using hh
      have hmeas : 2 * v'.count false + (rest ++ new).length < fuel := by
        simp only [List.length_append]
        simp only [List.length_cons] at hm
        omega
      obtain ⟨v'', cN'', hrun', hst''⟩ := ih vPre v' (rest ++ new) (cN ++ [ti]) seed hst' hmeas
      refine ⟨v'', cN'', ?_, hst''⟩
      have hget : ts.get? ti = some (ts.get ⟨ti, htin⟩) := List.get?_eq_get htin
      calc componentBFSAux ts conn (fuel + 1) v (ti :: rest) (cN.map toTriangleIndex)
          = componentBFSAux ts conn fuel v' (rest ++ ([] ++ new))
            (cN.map toTriangleIndex ++ [toTriangleIndex ti]) := by
            simp only [componentBFSAux, hget, hrun]
        _ = componentBFSAux ts conn fuel v' (rest ++ new)
            ((cN ++ [ti]).map toTriangleIndex) := by
            simp
        _ = some (.ok (v'', cN''.map toTriangleIndex)) := hrun'

lemma componentBFS_run {ts : List Triangle} {conn : EdgeMap}
    (hconn : SlotsBounded ts.length conn) (hn : ts.length ≤ 2 ^ 31)
    {vPre v : List Bool} {q cN : List ℕ} {seed : ℕ}
    (hst : BfsState ts.length seed vPre v q cN) :
    ∃ v' cN', componentBFS ts conn v q (cN.map toTriangleIndex) =
        .ok (v', cN'.map toTriangleIndex) ∧
      BfsState ts.length seed vPre v' [] cN' := by
  obtain ⟨v', cN', hrun, hst'⟩ :=
    componentBFSAux_run hconn hn (2 * v.count false + q.length + 1) vPre v q cN seed
      hst (by omega)
  exact ⟨v', cN', by unfold componentBFS; rw [hrun]; rfl, hst'⟩

lemma headI_eq_of_head? {l : List ℕ} {a : ℕ} (h : l.head? = some a) : l.headI = a := by
  cases l with
  | nil => cases h
  | cons x xs =>
    simp only [List.head?_cons, Option.some.injEq] at h
    simpa using h

lemma headI_mem {l : List ℕ} (h : l ≠ []) : l.headI ∈ l := by
  cases l with
  | nil => exact absurd rfl h
  | cons x xs => exact List.mem_cons_self x xs

lemma get?_true_of_lt_findIdx {v : List Bool} {j : ℕ}
    (hj : j < v.findIdx fun b => !b) : v.get? j = some true := by
  have hjlen : j < v.length :=
    Nat.lt_of_lt_of_le hj (List.findIdx_le_length _)
  have hnot := List.not_of_lt_findIdx hj
  rw [List.get?_eq_getElem?, List.getElem?_eq_getElem hjlen]
  cases hb : v[j] with
  | true => rfl
  | false => rw [hb] at hnot; simp at hnot

lemma findComponentsAux_run {ts : List Triangle} {conn : EdgeMap}
    (hconn : SlotsBounded ts.length conn) (hn : ts.length ≤ 2 ^ 31) :
    ∀ (fuel : ℕ) (v : List Bool) (accN : List (List ℕ)),
      OuterState ts.length v accN →
      v.count false < fuel →
      ∃ v' accN',
        findComponentsAux ts conn fuel v (accN.map (List.map toTriangleIndex)) =
          some (.ok (accN'.map (List.map toTriangleIndex))) ∧
        OuterState ts.length v' accN' ∧
        (∀ i, i < ts.length → v'.get? i = some true) := by
  intro fuel
  induction fuel with
  | zero => intro v accN hst hm; omega
  | succ fuel ih =>
    intro v accN hst hm
    by_cases hseed : ts.length ≤ v.findIdx fun b => !b
    · refine ⟨v, accN, ?_, hst, ?_⟩
      · simp only [findComponentsAux]
        rw [if_pos hseed]
      · intro i hi
        have hfi : (v.findIdx fun b => !b) = v.length :=
          le_antisymm (List.findIdx_le_length _) (by rw [hst.hlen]; exact hseed)
        have hall := List.findIdx_eq_length.mp hfi
        have hilen : i < v.length := by rw [hst.hlen]; exact hi
        obtain ⟨b, hb⟩ : ∃ b, v.get? i = some b :=
          ⟨v.get ⟨i, hilen⟩, List.get?_eq_get hilen⟩
        have hbv := hall b (List.get?_mem hb)
        cases b with
        | true => exact hb
        | false => simp at hbv
    · push_neg at hseed
      have hseedlenv : (v.findIdx fun b => !b) < v.length := by
        rw [hst.hlen]; exact hseed
      have hgetseed : v.get? (v.findIdx fun b => !b) = some false := by
        have hp := @List.findIdx_getElem Bool (fun b => !b) v hseedlenv
        rw [List.get?_eq_getElem?, List.getElem?_eq_getElem hseedlenv]
        cases hb : v[(v.findIdx fun b => !b)] with
        | false => rfl
        | true => rw [hb] at hp; simp at hp
      have hstb : BfsState ts.length (v.findIdx fun b => !b) v
          (v.set (v.findIdx fun b => !b) true) [v.findIdx fun b => !b] [] := by
        refine ⟨by simpa using hst.hlen, hst.hlen, ?_, ?_, ?_, ?_, ?_, rfl⟩
        · intro x hx
          simp only [List.nil_append, List.mem_singleton] at hx
          rw [hx]; exact hseed
        · intro x hx
          simp only [List.nil_append, List.mem_singleton] at hx
          rw [hx]; exact hgetseed
        · simp
        · intro k
          rw [get?_set_true_iff hseedlenv k]
          simp [eq_comm]
        · have := count_false_set_true v _ hgetseed
          simp only [List.nil_append, List.length_singleton]
          omega
      obtain ⟨v', cN', hrun, hst'⟩ := componentBFS_run hconn hn hstb
      simp only [List.map_nil] at hrun
      have hcN'map : ∀ P : Prop, P → P := fun _ p => p
      -- facts about the finished component
      have hcne : cN' ≠ [] := by
        intro h
        have := hst'.hhead
        rw [h] at this
        cases this
      have hchead : cN'.headI = (v.findIdx fun b => !b) :=
        headI_eq_of_head? (by simpa using hst'.hhead)
      have hclt : ∀ x ∈ cN', x < ts.length := by
        intro x hx
        exact hst'.hlt x (by simpa using hx)
      have hcfresh : ∀ x ∈ cN', v.get? x = some false := by
        intro x hx
        exact hst'.hfresh x (by simpa using hx)
      have hcnodup : cN'.Nodup := by
        have := hst'.hnodup
        simpa using this
      have hcvis : ∀ k, v'.get? k = some true ↔ (v.get? k = some true ∨ k ∈ cN') := by
        intro k
        have := hst'.hvis k
        simpa using this
      have hccount : v'.count false + cN'.length = v.count false := by
        have h1 := hst'.hcount
        have h2 := count_false_set_true v _ hgetseed
        simp only [List.append_nil] at h1
        omega
      have hcmin : ∀ x ∈ cN', cN'.headI ≤ x := by
        intro x hx
        rw [hchead]
        by_contra hlt'
        push_neg at hlt'
        have h1 := get?_true_of_lt_findIdx hlt'
        have h2 := hcfresh x hx
        rw [h1] at h2
        cases h2
      have hdisjoint : ∀ x ∈ accN.flatten, x ∉ cN' := by
        intro x hx hxc
        have h1 : v.get? x = some true := (hst.hvis x).mpr hx
        have h2 := hcfresh x hxc
        rw [h1] at h2
        cases h2
      have hst'' : OuterState ts.length v' (accN ++ [cN']) := by
        refine ⟨hst'.hlen, ?_, ?_, ?_, ?_, ?_, ?_, ?_⟩
        · intro k
          rw [hcvis k, hst.hvis k]
          simp [List.flatten_append]
        · intro c hc
          rcases List.mem_append.mp hc with hc1 | hc2
          · exact hst.hne c hc1
          · rw [List.mem_singleton.mp hc2]; exact hcne
        · intro c hc
          rcases List.mem_append.mp hc with hc1 | hc2
          · exact hst.hlt c hc1
          · rw [List.mem_singleton.mp hc2]; exact hclt
        · rw [List.flatten_append]
          simp only [List.flatten_cons, List.flatten_nil, List.append_nil]
          exact List.Nodup.append hst.hnodup hcnodup hdisjoint
        · intro c hc
          rcases List.mem_append.mp hc with hc1 | hc2
          · exact hst.hmin c hc1
          · rw [List.mem_singleton.mp hc2]; exact hcmin
        · intro c hc j hj
          rcases List.mem_append.mp hc with hc1 | hc2
          · exact (hcvis j).mpr (Or.inl (hst.hheadvis c hc1 j hj))
          · rw [List.mem_singleton.mp hc2] at hj
            rw [hchead] at hj
            exact (hcvis j).mpr (Or.inl (get?_true_of_lt_findIdx hj))
        · rw [List.map_append]
          refine List.Chain'.append hst.hchain (by simp) ?_
          intro x hx y hy
          simp only [List.map_cons, List.map_nil, List.head?_cons,
            Option.mem_def, Option.some.injEq] at hy
          rw [List.getLast?_map] at hx
          simp only [Option.mem_def, Option.map_eq_some'] at hx
          obtain ⟨cL, hcL, hcLx⟩ := hx
          have hcLmem : cL ∈ accN := List.mem_of_getLast?_eq_some hcL
          have hheadT : v.get? cL.headI = some true :=
            (hst.hvis cL.headI).mpr
              (List.mem_flatten_of_mem hcLmem (headI_mem (hst.hne cL hcLmem)))
          rw [← hy, ← hcLx]
          rcases lt_trichotomy cL.headI (v.findIdx fun b => !b) with h | h | h
          · rw [hchead]; exact h
          · rw [h] at hheadT
            rw [hheadT] at hgetseed
            cases hgetseed
          · have := hst.hheadvis cL hcLmem _ h
            rw [this] at hgetseed
            cases hgetseed
      have hmeas : v'.count false < fuel := by
        have hlen1 : 1 ≤ cN'.length := by
          cases cN' with
          | nil => exact absurd rfl hcne
          | cons a as => simp
        omega
      obtain ⟨v'', accN'', hrun', hst''', hcov⟩ := ih v' (accN ++ [cN']) hst'' hmeas
      refine ⟨v'', accN'', ?_, hst''', hcov⟩
      have hstep : findComponentsAux ts conn (fuel + 1) v
          (accN.map (List.map toTriangleIndex)) =
          findComponentsAux ts conn fuel v'
            (accN.map (List.map toTriangleIndex) ++ [cN'.map toTriangleIndex]) := by
        simp only [findComponentsAux]
        rw [if_neg (not_le.mpr hseed)]
        rw [hrun]
      rw [hstep]
      rw [List.map_append] at hrun'
      simpa using hrun'

lemma slotsBounded_of_build {ts : List Triangle} {mesh : TriangleMesh}
    (hok : buildMesh ts = .ok mesh) (hn : ts.length ≤ 2 ^ 31) :
    SlotsBounded ts.length mesh.edge_connectivity := by
  intro e s hmem
  obtain ⟨i, hik, hs0, -, hrest⟩ :=
    edge_connectivity_invariant ts mesh hok hn e s.1 s.2 (by
      rw [Prod.mk.eta]; exact hmem)
  constructor
  · rw [hs0]
    constructor
    · exact Int.ofNat_nonneg i
    · exact_mod_cast hik
  · rcases hrest with hb | ⟨j, hjk, hs1, -, -⟩
    · exact Or.inl hb
    · refine Or.inr ⟨?_, ?_⟩
      · rw [hs1]; exact Int.ofNat_nonneg j
      · rw [hs1]; exact_mod_cast hjk

/-- C5: for every successfully built mesh, `find_connected_components`
returns (error-free) a list of components — lists of triangle indices —
that are nonempty, in range, duplicate-free, pairwise disjoint, jointly
covering every triangle index, each led by its seed (its smallest
index, the first unvisited index at that outer iteration), with the
seeds strictly increasing across the returned order. -/
theorem find_connected_components_spec (ts : List Triangle) (mesh : TriangleMesh)
    (hok : buildMesh ts = .ok mesh) (hn : ts.length ≤ 2 ^ 31) :
    ∃ comps : List (List ℕ),
      find_connected_components mesh =
        .ok (comps.map (List.map (fun x : ℕ => (x : ℤ)))) ∧
      (∀ c ∈ comps, c ≠ []) ∧
      (∀ c ∈ comps, ∀ x ∈ c, x < ts.length) ∧
      (∀ c ∈ comps, c.Nodup) ∧
      List.Pairwise List.Disjoint comps ∧
      (∀ i, i < ts.length → ∃ c ∈ comps, i ∈ c) ∧
      (∀ c ∈ comps, ∀ x ∈ c, c.headI ≤ x) ∧
      List.Chain' (· < ·) (comps.map List.headI) := by
  have htris : mesh.triangles = ts := (buildMesh_ok_inv hok).1
  have hconn : SlotsBounded ts.length mesh.edge_connectivity :=
    slotsBounded_of_build hok hn
  have hst0 : OuterState ts.length (List.replicate ts.length false) [] := by
    refine ⟨List.length_replicate ts.length false, ?_, by simp, by simp, by simp,
      by simp, by simp, by simp⟩
    intro k
    simp only [List.flatten_nil, List.not_mem_nil, iff_false]
    intro hk
    rw [List.get?_eq_getElem?] at hk
    by_cases hkn : k < ts.length
    · rw [List.getElem?_replicate, if_pos hkn] at hk
      cases hk
    · rw [List.getElem?_replicate, if_neg hkn] at hk
      cases hk
  obtain ⟨v', accN', hrun, hstF, hcov⟩ :=
    findComponentsAux_run hconn hn
      ((List.replicate ts.length false).count false + 1)
      (List.replicate ts.length false) [] hst0 (by omega)
  refine ⟨accN', ?_, hstF.hne, hstF.hlt, ?_, ?_, ?_, hstF.hmin, hstF.hchain⟩
  · unfold find_connected_components
    rw [htris]
    show (findComponentsAux ts mesh.edge_connectivity
        ((List.replicate ts.length false).count false + 1)
        (List.replicate ts.length false) []).getD (Except.ok []) = _
    simp only [List.map_nil] at hrun
    rw [hrun]
    have hcast : accN'.map (List.map toTriangleIndex) =
        accN'.map (List.map fun x : ℕ => (x : ℤ)) := by
      refine List.map_congr_left ?_
      intro c hc
      refine List.map_congr_left ?_
      intro x hx
      exact toTriangleIndex_small (by
        have := hstF.hlt c hc x hx
        omega)
    rw [hcast]
    rfl
  · exact fun c hc => ((List.nodup_flatten.mp hstF.hnodup).1) c hc
  · exact (List.nodup_flatten.mp hstF.hnodup).2
  · intro i hi
    have := (hstF.hvis i).mp (hcov i hi)
    exact List.mem_flatten.mp this

/-- Witness for C5 at a concrete two-component mesh (two far-apart
triangles): components `[[0], [1]]`. -/
theorem find_connected_components_spec_witness :
    ∃ comps : List (List ℕ),
      find_connected_components ⟨[triP, triR], connOf [triP, triR]⟩ =
        .ok (comps.map (List.map (fun x : ℕ => (x : ℤ)))) ∧
      (∀ c ∈ comps, c ≠ []) ∧
      (∀ c ∈ comps, ∀ x ∈ c, x < [triP, triR].length) ∧
      (∀ c ∈ comps, c.Nodup) ∧
      List.Pairwise List.Disjoint comps ∧
      (∀ i, i < [triP, triR].length → ∃ c ∈ comps, i ∈ c) ∧
      (∀ c ∈ comps, ∀ x ∈ c, c.headI ≤ x) ∧
      List.Chain' (· < ·) (comps.map List.headI) :=
  find_connected_components_spec [triP, triR] ⟨[triP, triR], connOf [triP, triR]⟩
    buildMesh_triPR (by norm_num)

lemma reorientStep_cases (triangles : List Triangle) (conn : EdgeMap) (ti : ℕ)
    (tri : Triangle) (st : List Bool × List ℕ × List Triangle) (e : Edge) :
    (∃ u, reorientStep triangles conn ti tri st e = .error u) ∨
    reorientStep triangles conn ti tri st e = .ok st ∨
    ∃ x fl', x < st.1.length ∧ st.1.get? x = some false ∧
      reorientStep triangles conn ti tri st e =
        .ok (st.1.set x true, st.2.1 ++ [x], fl') := by
  cases hf : findSlots conn e with
  | none => exact Or.inr (Or.inl (by simp only [reorientStep, hf]))
  | some deg =>
    cases hv : st.1.get? (reorientNeighbor deg ti) with
    | none =>
      refine Or.inl ⟨(), ?_⟩
      simp only [reorientStep, hf, hv, edgeSlotsSize, ne_eq, not_true_eq_false, if_false]
    | some b =>
      cases b with
      | true =>
        refine Or.inr (Or.inl ?_)
        simp only [reorientStep, hf, hv, edgeSlotsSize, ne_eq, not_true_eq_false, if_false]
      | false =>
        cases ht : triangles.get? (reorientNeighbor deg ti) with
        | none =>
          refine Or.inl ⟨(), ?_⟩
          simp only [reorientStep, hf, hv, ht, edgeSlotsSize, ne_eq,
            not_true_eq_false, if_false]
        | some ntri =>
          refine Or.inr (Or.inr ⟨reorientNeighbor deg ti,
            (if are_orientations_consistent tri ntri e = false
              then st.2.2 ++ [flip_triangle ntri] else st.2.2), ?_, hv, ?_⟩)
          · have := List.get?_eq_some.mp hv
            exact this.1
          · simp only [reorientStep, hf, hv, ht, edgeSlotsSize, ne_eq,
              not_true_eq_false, if_false]

lemma reorientVisit_measure {triangles : List Triangle} {conn : EdgeMap}
    {ti : ℕ} {tri : Triangle} :
    ∀ (es : List Edge) (v : List Bool) (ps : List ℕ) (fl : List Triangle)
      (v' : List Bool) (ps' : List ℕ) (fl' : List Triangle),
      reorientVisit triangles conn ti tri es (v, ps, fl) = .ok (v', ps', fl') →
      2 * v'.count false + ps'.length ≤ 2 * v.count false + ps.length := by
  intro es
  induction es with
  | nil =>
    intro v ps fl v' ps' fl' h
    simp only [reorientVisit, Except.ok.injEq, Prod.mk.injEq] at h
    obtain ⟨h1, h2, -⟩ := h
    subst h1; subst h2
    omega
  | cons e es ih =>
    intro v ps fl v' ps' fl' h
    rcases reorientStep_cases triangles conn ti tri (v, ps, fl) e with
      ⟨u, herr⟩ | hok | ⟨x, fl2, hxlen, hxf, hpush⟩
    · simp only [reorientVisit, herr] at h
      cases h
    · simp only [reorientVisit, hok] at h
      exact ih v ps fl v' ps' fl' h
    · simp only [reorientVisit, hpush] at h
      have hrec := ih (v.set x true) (ps ++ [x]) fl2 v' ps' fl' h
      have hcnt : (v.set x true).count false + 1 = v.count false :=
        count_false_set_true v x hxf
      simp only [List.length_append, List.length_singleton] at hrec
      omega

/-- The fuel chosen by `reorient_inconsistent_triangles` is sufficient:
the BFS always resolves to a value (a result or a modelled
out-of-bounds error) before the fuel runs out. -/
lemma reorientBFSAux_isSome {triangles : List Triangle} {conn : EdgeMap} :
    ∀ (fuel : ℕ) (v : List Bool) (q : List ℕ) (fl : List Triangle),
      2 * v.count false + q.length < fuel →
      (reorientBFSAux triangles conn fuel v q fl).isSome = true := by
  intro fuel
  induction fuel with
  | zero => intro v q fl hm; omega
  | succ fuel ih =>
    intro v q fl hm
    cases q with
    | nil => rfl
    | cons ti rest =>
      cases ht : triangles.get? ti with
      | none => simp only [reorientBFSAux, ht]; rfl
      | some tri =>
        cases hv : reorientVisit triangles conn ti tri (triangleEdges tri) (v, [], fl) with
        | error u => simp only [reorientBFSAux, ht, hv]; rfl
        | ok st' =>
          obtain ⟨v', ps, fl'⟩ := st'
          have hms := reorientVisit_measure (triangleEdges tri) v [] fl v' ps fl' hv
          simp only [reorientBFSAux, ht, hv]
          refine ih v' (rest ++ ps) fl' ?_
          simp only [List.length_append]
          simp only [List.length_cons] at hm
          simp only [List.length_nil] at hms
          omega

/-- Witness for C7: the duplicate-vertex triangle is reported at index 0. -/
theorem degenerate_rejection_spec_witness :
    ∃ t, [triDup].get? 0 = some t ∧ isDegenerate t = true :=
  (degenerate_rejection_spec [triDup]).1 0 rfl

lemma triS_not_degenerate : isDegenerate triS = false := by
  norm_num [isDegenerate, hasDuplicateVertex, crossSq, kTolerance, triS]

/-- Witness for C3: the third registration on the doubly occupied edge
errors at that registration, and the three-triangle build reports the
non-manifold failure. -/
theorem nonmanifold_incremental_spec_witness :
    registerEdge [(make_edge ⟨0, 0, 0⟩ ⟨1, 0, 0⟩, ((0 : ℤ), (1 : ℤ)))]
      (make_edge ⟨0, 0, 0⟩ ⟨1, 0, 0⟩) 2 = .error () ∧
    buildMesh [triP, triQ, triS] = .error .nonManifold :=
  ⟨(nonmanifold_incremental_spec.1 _ _ _).mpr ⟨((0 : ℤ), (1 : ℤ)), rfl, by decide⟩,
   (nonmanifold_incremental_spec.2.2 [triP, triQ, triS]).mpr
     ⟨by decide,
      by simp [checkDegenerate, triP_not_degenerate, triQ_not_degenerate,
        triS_not_degenerate],
      rfl⟩⟩

/-- Witness for C10 at the shared edge of the two-triangle mesh, whose
slots are (0, 1). -/
theorem edge_connectivity_invariant_witness :
    ∃ i : ℕ, i < [triP, triQ].length ∧ (0 : ℤ) = (i : ℤ) ∧
      (∃ t, [triP, triQ].get? i = some t ∧
        make_edge ⟨0, 0, 0⟩ ⟨1, 0, 0⟩ ∈ triangleEdges t) ∧
      ((1 : ℤ) = kBoundaryTriangleIndex ∨
        ∃ j : ℕ, j < [triP, triQ].length ∧ (1 : ℤ) = (j : ℤ) ∧ (0 : ℤ) < 1 ∧
          ∃ t', [triP, triQ].get? j = some t' ∧
            make_edge ⟨0, 0, 0⟩ ⟨1, 0, 0⟩ ∈ triangleEdges t') :=
  edge_connectivity_invariant [triP, triQ] ⟨[triP, triQ], connOf [triP, triQ]⟩
    buildMesh_triPQ (by norm_num) (make_edge ⟨0, 0, 0⟩ ⟨1, 0, 0⟩) 0 1 (by decide)

end TSExam
